import Mathlib

/-!
Shallow embedding of the JSON-like parser in src/parser.rs (a nom-5 style
recursive-descent parser) and proofs about it.  Inputs are lists of
characters; a parser returns `none` on failure, or the parsed result
together with the unconsumed remainder of the input.
-/

set_option linter.unusedVariables false
set_option linter.unusedTactic false
set_option maxRecDepth 8192

namespace JsonParse

/-- Rust `char::is_ascii_control`: U+0000 through U+001F, plus U+007F. -/
def isAsciiControl (c : Char) : Bool := c.toNat < 32 || c.toNat == 127

/-- Whitespace recognized by nom `multispace0`: space, tab, carriage return, line feed. -/
def isWsChar (c : Char) : Bool := c == ' ' || c == '\t' || c == '\r' || c == '\n'

/-- nom `multispace0`: consume zero or more whitespace characters; never fails. -/
def multispace0 (i : List Char) : List Char := i.dropWhile isWsChar

/-- nom `tag(t)`: succeed, consuming exactly `t`, when `t` is a prefix of the input. -/
def tagP (t i : List Char) : Option (List Char) :=
  if i.take t.length = t then some (i.drop t.length) else none

/-- A character accepted by `normal`: not a backslash, not a double quote and
not an ASCII control character. -/
def isNormalChar (c : Char) : Bool := !(c == '\\' || c == '"' || isAsciiControl c)

/-- `normal` in src/parser.rs: `take_till1` on backslash, quote and control characters,
that is, the longest nonempty run of normal characters; fails on an empty run. -/
def normal (i : List Char) : Option (List Char × List Char) :=
  let t := i.takeWhile isNormalChar
  if t.isEmpty then none else some (t, i.drop t.length)

/-- Rust `char::is_ascii_hexdigit`. -/
def isAsciiHexDigit (c : Char) : Bool :=
  c.isDigit || ('a' ≤ c && c ≤ 'f') || ('A' ≤ c && c ≤ 'F')

/-- The character class scanned by `parse_hex`: an ASCII hex digit or the letter u. -/
def isHexOrU (c : Char) : Bool := isAsciiHexDigit c || c == 'u'

/-- `parse_hex` in src/parser.rs: peek a leading `u`, then
`take_while_m_n(5, 5, hexdigit-or-u)`: exactly five characters of that class. -/
def parse_hex (i : List Char) : Option (List Char × List Char) :=
  match i with
  | 'u' :: _ =>
      if (i.take 5).length = 5 ∧ (i.take 5).all isHexOrU then some (i.take 5, i.drop 5)
      else none
  | _ => none

/-- `escapable` in src/parser.rs: alternation of the single-character escape tags,
then `parse_hex`. -/
def escapable (i : List Char) : Option (List Char × List Char) :=
  match i with
  | '"' :: r => some (['"'], r)
  | '\\' :: r => some (['\\'], r)
  | '/' :: r => some (['/'], r)
  | 'b' :: r => some (['b'], r)
  | 'f' :: r => some (['f'], r)
  | 'n' :: r => some (['n'], r)
  | 'r' :: r => some (['r'], r)
  | 't' :: r => some (['t'], r)
  | _ => parse_hex i

/-- The loop of nom's `escaped(normal, backslash, escapable)` combinator, returning the
matched region and the remainder.  Every iteration consumes at least one character, so
the fuel `i.length + 1` supplied by `parse_str` never runs out. -/
def escapedGo : Nat → List Char → Option (List Char × List Char)
  | 0, _ => none
  | _ + 1, [] => some ([], [])
  | f + 1, c :: rest =>
    match normal (c :: rest) with
    | some (t, i2) =>
      if i2.isEmpty then some (c :: rest, [])
      else
        match escapedGo f i2 with
        | some (m, r) => some (t ++ m, r)
        | none => none
    | none =>
      if c = '\\' then
        match escapable rest with
        | some (m, i2) =>
          if i2.isEmpty then some (c :: rest, [])
          else
            match escapedGo f i2 with
            | some (m2, r) => some ('\\' :: (m ++ m2), r)
            | none => none
        | none => none
      else some ([], c :: rest)

/-- `parse_str` in src/parser.rs: `escaped(normal, backslash, escapable)`.  It fails when
the scan matches nothing, as pinned down by the repository's own `test_parse_str` test.
The remainder of a scan is always the input with the matched prefix removed (theorem
`escapedGo_append` below), written here as an explicit `drop` so the remainder's length
bound is evident. -/
def parse_str (i : List Char) : Option (List Char × List Char) :=
  match escapedGo (i.length + 1) i with
  | some (m, _) => if m.isEmpty then none else some (m, i.drop m.length)
  | none => none

/-- `string` in src/parser.rs: alternation of the empty-literal tag, whose output is the
two quote characters themselves, and quote-delimited `parse_str`. -/
def string (i : List Char) : Option (List Char × List Char) :=
  match tagP ['"', '"'] i with
  | some r => some (['"', '"'], r)
  | none =>
    match tagP ['"'] i with
    | none => none
    | some i1 =>
      match parse_str i1 with
      | none => none
      | some (s, i2) =>
        match tagP ['"'] i2 with
        | none => none
        | some r => some (s, r)

/-- `boolean` in src/parser.rs: the literals true and false. -/
def boolean (i : List Char) : Option (Bool × List Char) :=
  match tagP ['t', 'r', 'u', 'e'] i with
  | some r => some (true, r)
  | none =>
    match tagP ['f', 'a', 'l', 's', 'e'] i with
    | some r => some (false, r)
    | none => none

/-- `JsonValue` in src/parser.rs.  `Num` carries the exact rational value denoted by the
numeric literal where the reference stores the nearest `f64`; the distinction only
matters for claim C8, where overflow to an infinite double is captured by
`f64Overflows`.  `Object` carries the key-value association produced by collecting the
parsed pairs into a `HashMap` (one entry per key; iteration order is unspecified in the
reference and irrelevant here). -/
inductive JsonValue where
  | Str : List Char → JsonValue
  | Boolean : Bool → JsonValue
  | Null : JsonValue
  | Num : ℚ → JsonValue
  | Array : List JsonValue → JsonValue
  | Object : List (List Char × JsonValue) → JsonValue

instance : Inhabited JsonValue := ⟨JsonValue.Null⟩

/-- `null` in src/parser.rs: the literal null. -/
def null (i : List Char) : Option (JsonValue × List Char) :=
  match tagP ['n', 'u', 'l', 'l'] i with
  | some r => some (JsonValue.Null, r)
  | none => none

/-- nom `digit1`: the longest nonempty run of ASCII digits. -/
def digit1 (i : List Char) : Option (List Char × List Char) :=
  let t := i.takeWhile Char.isDigit
  if t.isEmpty then none else some (t, i.drop t.length)

/-- The optional leading sign of nom 5's `recognize_float`: plus or minus. -/
def signPart (i : List Char) : List Char × List Char :=
  match i with
  | '+' :: r => (['+'], r)
  | '-' :: r => (['-'], r)
  | _ => ([], i)

/-- The optional fractional part of `recognize_float`: a dot followed by optional digits. -/
def fracPart (i : List Char) : List Char × List Char :=
  match i with
  | '.' :: r =>
    match digit1 r with
    | some (fd, r2) => ('.' :: fd, r2)
    | none => (['.'], r)
  | _ => ([], i)

/-- The optional exponent of `recognize_float`: e or E, an optional sign, then digits;
the whole group is backtracked when the digits are missing, since nom 5 wraps the
triple in `opt`. -/
def expPart (i : List Char) : List Char × List Char :=
  match i with
  | c :: r =>
    if c = 'e' ∨ c = 'E' then
      match r with
      | '+' :: r2 =>
        (match digit1 r2 with
         | some (ed, r3) => (c :: '+' :: ed, r3)
         | none => ([], i))
      | '-' :: r2 =>
        (match digit1 r2 with
         | some (ed, r3) => (c :: '-' :: ed, r3)
         | none => ([], i))
      | _ =>
        (match digit1 r with
         | some (ed, r3) => (c :: ed, r3)
         | none => ([], i))
    else ([], i)
  | [] => ([], i)

/-- nom 5 `recognize_float`: an optional sign, then either digits with an optional
fractional part, or a dot with digits, then an optional exponent. -/
def recognize_float (i : List Char) : Option (List Char × List Char) :=
  match digit1 (signPart i).2 with
  | some (d, i2) =>
    some ((signPart i).1 ++ d ++ (fracPart i2).1 ++ (expPart (fracPart i2).2).1,
          (expPart (fracPart i2).2).2)
  | none =>
    match (signPart i).2 with
    | '.' :: r =>
      match digit1 r with
      | some (fd, i2) =>
        some ((signPart i).1 ++ '.' :: fd ++ (expPart i2).1, (expPart i2).2)
      | none => none
    | _ => none

/-- Numeric value of a string of ASCII digits. -/
def digitsToNat (ds : List Char) : Nat := ds.foldl (fun a c => 10 * a + (c.toNat - 48)) 0

/-- The exact value denoted by a token matched by `recognize_float`: the integer formed
by the digits before and after the dot, scaled by the appropriate power of ten and
signed.  This models the Rust `str::parse::<f64>` conversion used by nom's `double`,
kept as an exact rational instead of rounding to a double. -/
def floatVal (t : List Char) : ℚ :=
  let t1 := (signPart t).2
  let ip := t1.takeWhile Char.isDigit
  let t2 := t1.dropWhile Char.isDigit
  let fp := match t2 with
    | '.' :: r => r.takeWhile Char.isDigit
    | _ => []
  let t3 := match t2 with
    | '.' :: r => r.dropWhile Char.isDigit
    | _ => t2
  let ex : ℤ := match t3 with
    | c :: r =>
      if c = 'e' ∨ c = 'E' then
        match r with
        | '-' :: r2 => -(digitsToNat (r2.takeWhile Char.isDigit) : ℤ)
        | '+' :: r2 => (digitsToNat (r2.takeWhile Char.isDigit) : ℤ)
        | _ => (digitsToNat (r.takeWhile Char.isDigit) : ℤ)
      else 0
    | [] => 0
  let mant : ℤ := digitsToNat ip * 10 ^ fp.length + digitsToNat fp
  let mantSigned : ℤ := match t with | '-' :: _ => -mant | _ => mant
  let scale : ℤ := ex - fp.length
  if 0 ≤ scale then ((mantSigned * 10 ^ scale.toNat : ℤ) : ℚ)
  else mkRat mantSigned (10 ^ (-scale).toNat)

/-- nom 5 `number::complete::double`: recognize a float token, then convert it.  Every
token produced by `recognize_float` is accepted by the Rust conversion (possibly
producing an infinite double on overflow, see `f64Overflows`). -/
def double (i : List Char) : Option (ℚ × List Char) :=
  match recognize_float i with
  | some (t, r) => some (floatVal t, r)
  | none => none

/-- Insertion into the association-list model of `HashMap`: replace the value when the
key is already present, append otherwise; last write wins and there is one entry per
key. -/
def hmInsert (m : List (List Char × JsonValue)) (k : List Char) (v : JsonValue) :
    List (List Char × JsonValue) :=
  match m with
  | [] => [(k, v)]
  | (k1, v1) :: t => if k1 = k then (k1, v) :: t else (k1, v1) :: hmInsert t k v

/-- The `tuple_vec.into_iter().collect::<HashMap<_, _>>()` step of `object`. -/
def hmCollect (pv : List (List Char × JsonValue)) : List (List Char × JsonValue) :=
  pv.foldl (fun m kv => hmInsert m kv.1 kv.2) []

/-- `key` in src/parser.rs: a string literal with surrounding whitespace trimmed. -/
def key (i : List Char) : Option (List Char × List Char) :=
  match string (multispace0 i) with
  | some (s, r) => some (s, multispace0 r)
  | none => none

mutual

/-- `value` in src/parser.rs: whitespace-trimmed alternation over object, array, string,
number, boolean and null, tried in that priority order. -/
def value (i : List Char) : Option (JsonValue × List Char) :=
  match object (multispace0 i) with
  | some (m, r) => some (JsonValue.Object m, multispace0 r)
  | none =>
    match array (multispace0 i) with
    | some (a, r) => some (JsonValue.Array a, multispace0 r)
    | none =>
      match string (multispace0 i) with
      | some (s, r) => some (JsonValue.Str s, multispace0 r)
      | none =>
        match double (multispace0 i) with
        | some (q, r) => some (JsonValue.Num q, multispace0 r)
        | none =>
          match boolean (multispace0 i) with
          | some (b, r) => some (JsonValue.Boolean b, multispace0 r)
          | none =>
            match null (multispace0 i) with
            | some (v, r) => some (v, multispace0 r)
            | none => none
termination_by (i.length, 1)
decreasing_by
all_goals
  simp_wf
  have h2 := congrArg List.length (List.takeWhile_append_dropWhile isWsChar i)
  simp only [List.length_append] at h2
  have hle : (multispace0 i).length ≤ i.length := by
    simp only [multispace0]
    omega
  rcases Nat.lt_or_ge (multispace0 i).length i.length with hlt | hge
  · exact Prod.Lex.left _ _ hlt
  · have heq : (multispace0 i).length = i.length := Nat.le_antisymm hle hge
    rw [heq]
    exact Prod.Lex.right _ (by omega)

/-- An array or object element: `delimited(multispace0, value, multispace0)`. -/
def elementV (i : List Char) : Option (JsonValue × List Char) :=
  match value (multispace0 i) with
  | some (v, r) => some (v, multispace0 r)
  | none => none
termination_by (i.length, 2)
decreasing_by
  simp_wf
  have h2 := congrArg List.length (List.takeWhile_append_dropWhile isWsChar i)
  simp only [List.length_append] at h2
  have hle : (multispace0 i).length ≤ i.length := by
    simp only [multispace0]
    omega
  rcases Nat.lt_or_ge (multispace0 i).length i.length with hlt | hge
  · exact Prod.Lex.left _ _ hlt
  · have heq : (multispace0 i).length = i.length := Nat.le_antisymm hle hge
    rw [heq]
    exact Prod.Lex.right _ (by omega)

/-- `array` in src/parser.rs: a bracket-delimited `separated_list` of elements. -/
def array (i : List Char) : Option (List JsonValue × List Char) :=
  match h1 : tagP ['['] i with
  | none => none
  | some i1 =>
    match sepValues i1 with
    | none => none
    | some (vs, i2) =>
      match tagP [']'] i2 with
      | none => none
      | some r => some (vs, r)
termination_by (i.length, 0)
decreasing_by
  simp_wf
  simp only [tagP] at h1
  split at h1
  · rename_i hc
    injection h1 with h1
    have h3 := congrArg List.length hc
    simp only [List.length_take, List.length_cons, List.length_nil] at h3
    have h4 : i1.length = i.length - 1 := by
      rw [← h1]
      simp [List.length_drop]
    exact Prod.Lex.left _ _ (by omega)
  · exact Option.noConfusion h1

/-- nom 5 `separated_list(tag(comma), element)` for arrays: the first element (an empty
list when it fails), then the separator loop.  The zero-progress guards mirror nom's
checks that a parser consumed input, phrased on lengths since a remainder is never
longer than the input it came from. -/
def sepValues (i : List Char) : Option (List JsonValue × List Char) :=
  match elementV i with
  | none => some ([], i)
  | some (v, i1) =>
    if h2 : i.length ≤ i1.length then none
    else
      match sepValuesRest i1 with
      | none => none
      | some (vs, r) => some (v :: vs, r)
termination_by (i.length, 4)
decreasing_by
  · simp_wf
    exact Prod.Lex.right _ (by omega)
  · simp_wf
    exact Prod.Lex.left _ _ (by omega)

/-- The loop of nom 5 `separated_list` for arrays: a comma followed by an element; when
the element fails, the comma is backtracked and the list parsed so far is returned. -/
def sepValuesRest (i : List Char) : Option (List JsonValue × List Char) :=
  match h1 : tagP [','] i with
  | none => some ([], i)
  | some i1 =>
    if h2 : i.length ≤ i1.length then none
    else
      match elementV i1 with
      | none => some ([], i)
      | some (v, i2) =>
        if h3 : i1.length ≤ i2.length then none
        else
          match sepValuesRest i2 with
          | none => none
          | some (vs, r) => some (v :: vs, r)
termination_by (i.length, 5)
decreasing_by
  · simp_wf
    exact Prod.Lex.left _ _ (by omega)
  · simp_wf
    exact Prod.Lex.left _ _ (by omega)

/-- One `key : value` pair of an object:
`separated_pair(key, tag(colon), delimited(multispace0, value, multispace0))`. -/
def pairP (i : List Char) : Option ((List Char × JsonValue) × List Char) :=
  match h1 : key i with
  | none => none
  | some (k, i1) =>
    match h2 : tagP [':'] i1 with
    | none => none
    | some i2 =>
      match elementV i2 with
      | none => none
      | some (v, r) => some ((k, v), r)
termination_by (i.length, 3)
decreasing_by
  simp_wf
  have hms : ∀ l : List Char, (List.dropWhile isWsChar l).length ≤ l.length := by
    intro l
    have h := congrArg List.length (List.takeWhile_append_dropWhile isWsChar l)
    simp only [List.length_append] at h
    omega
  have htag : ∀ t j j2 : List Char, tagP t j = some j2 → j2.length ≤ j.length := by
    intro t j j2 h
    simp only [tagP] at h
    split at h
    · injection h with h
      rw [← h]
      simp only [List.length_drop]
      omega
    · exact Option.noConfusion h
  have hps : ∀ j s j2, parse_str j = some (s, j2) → j2.length ≤ j.length := by
    intro j s j2 h
    simp only [parse_str] at h
    rcases hgo : escapedGo (j.length + 1) j with _ | ⟨m, mr⟩ <;> simp only [hgo] at h
    · exact Option.noConfusion h
    · split at h
      · exact Option.noConfusion h
      · injection h with h
        injection h with ha hb
        rw [← hb]
        simp only [List.length_drop]
        omega
  have hstr : ∀ j s r, string j = some (s, r) → r.length ≤ j.length := by
    intro j s r h
    simp only [string] at h
    rcases htg : tagP ['"', '"'] j with _ | r0 <;> simp only [htg] at h
    · rcases htg1 : tagP ['"'] j with _ | j1 <;> simp only [htg1] at h
      · exact Option.noConfusion h
      · rcases hps1 : parse_str j1 with _ | ⟨s1, j2⟩ <;> simp only [hps1] at h
        · exact Option.noConfusion h
        · rcases htg3 : tagP ['"'] j2 with _ | r1 <;> simp only [htg3] at h
          · exact Option.noConfusion h
          · injection h with h
            injection h with ha hb
            have e1 := htag _ _ _ htg1
            have e2 := hps _ _ _ hps1
            have e3 := htag _ _ _ htg3
            rw [hb] at e3
            omega
    · injection h with h
      injection h with ha hb
      have e0 := htag _ _ _ htg
      rw [hb] at e0
      exact e0
  have hkey : ∀ j k0 j1, key j = some (k0, j1) → j1.length ≤ j.length := by
    intro j k0 j1 h
    simp only [key] at h
    rcases hstr1 : string (multispace0 j) with _ | ⟨s, r⟩ <;> simp only [hstr1] at h
    · exact Option.noConfusion h
    · injection h with h
      injection h with ha hb
      have e1 := hstr _ _ _ hstr1
      rw [← hb]
      calc (multispace0 r).length ≤ r.length := hms r
      _ ≤ (multispace0 j).length := e1
      _ ≤ j.length := hms j
  have e4 := hkey _ _ _ h1
  have e5 := htag _ _ _ h2
  rcases Nat.lt_or_ge i2.length i.length with hlt | hge
  · exact Prod.Lex.left _ _ hlt
  · have heq : i2.length = i.length := Nat.le_antisymm (le_trans e5 e4) hge
    rw [heq]
    exact Prod.Lex.right _ (by omega)

/-- nom 5 `separated_list(tag(comma), pair)` for objects. -/
def sepPairs (i : List Char) : Option (List (List Char × JsonValue) × List Char) :=
  match pairP i with
  | none => some ([], i)
  | some (p, i1) =>
    if h2 : i.length ≤ i1.length then none
    else
      match sepPairsRest i1 with
      | none => none
      | some (ps, r) => some (p :: ps, r)
termination_by (i.length, 4)
decreasing_by
  · simp_wf
    exact Prod.Lex.right _ (by omega)
  · simp_wf
    exact Prod.Lex.left _ _ (by omega)

/-- The loop of nom 5 `separated_list` for objects: a comma followed by a pair; when the
pair fails, the comma is backtracked and the list parsed so far is returned. -/
def sepPairsRest (i : List Char) : Option (List (List Char × JsonValue) × List Char) :=
  match h1 : tagP [','] i with
  | none => some ([], i)
  | some i1 =>
    if h2 : i.length ≤ i1.length then none
    else
      match pairP i1 with
      | none => some ([], i)
      | some (p, i2) =>
        if h3 : i1.length ≤ i2.length then none
        else
          match sepPairsRest i2 with
          | none => none
          | some (ps, r) => some (p :: ps, r)
termination_by (i.length, 5)
decreasing_by
  · simp_wf
    exact Prod.Lex.left _ _ (by omega)
  · simp_wf
    exact Prod.Lex.left _ _ (by omega)

/-- `object` in src/parser.rs: a brace-delimited `separated_list` of pairs, collected
into the association model of `HashMap`; duplicate keys collapse, last write wins. -/
def object (i : List Char) : Option (List (List Char × JsonValue) × List Char) :=
  match h1 : tagP ['\x7b'] i with
  | none => none
  | some i1 =>
    match sepPairs i1 with
    | none => none
    | some (pv, i2) =>
      match tagP ['\x7d'] i2 with
      | none => none
      | some r => some (hmCollect pv, r)
termination_by (i.length, 0)
decreasing_by
  simp_wf
  simp only [tagP] at h1
  split at h1
  · rename_i hc
    injection h1 with h1
    have h3 := congrArg List.length hc
    simp only [List.length_take, List.length_cons, List.length_nil] at h3
    have h4 : i1.length = i.length - 1 := by
      rw [← h1]
      simp [List.length_drop]
    exact Prod.Lex.left _ _ (by omega)
  · exact Option.noConfusion h1

end

/-- `root` in src/parser.rs: whitespace-trimmed alternation restricted to object and
array; scalars are not offered at the top level. -/
def root (i : List Char) : Option (JsonValue × List Char) :=
  match object (multispace0 i) with
  | some (m, r) => some (JsonValue.Object m, multispace0 r)
  | none =>
    match array (multispace0 i) with
    | some (a, r) => some (JsonValue.Array a, multispace0 r)
    | none => none

/-!
Unfolding lemmas for the well-founded mutually recursive parsers, with the
dependent matches of the definitions replaced by plain matches so that they
can be used for rewriting and evaluation.
-/


theorem object_eq (i : List Char) : object i =
    (match tagP ['\x7b'] i with
    | none => none
    | some i1 =>
      match sepPairs i1 with
      | none => none
      | some (pv, i2) =>
        match tagP ['\x7d'] i2 with
        | none => none
        | some r => some (hmCollect pv, r)) := by
  rw [object.eq_def]
  split
  · rename_i heq
    rw [heq]
  · rename_i i1 heq
    rw [heq]

theorem array_eq (i : List Char) : array i =
    (match tagP ['['] i with
    | none => none
    | some i1 =>
      match sepValues i1 with
      | none => none
      | some (vs, i2) =>
        match tagP [']'] i2 with
        | none => none
        | some r => some (vs, r)) := by
  rw [array.eq_def]
  split
  · rename_i heq
    rw [heq]
  · rename_i i1 heq
    rw [heq]

theorem sepValues_eq (i : List Char) : sepValues i =
    (match elementV i with
    | none => some ([], i)
    | some (v, i1) =>
      if i.length ≤ i1.length then none
      else
        match sepValuesRest i1 with
        | none => none
        | some (vs, r) => some (v :: vs, r)) := by
  rw [sepValues.eq_def]
  split
  · rfl
  · split
    · rename_i h
      simp only [dif_pos h, if_pos h]
    · rename_i h
      simp only [dif_neg h, if_neg h]

theorem sepValuesRest_eq (i : List Char) : sepValuesRest i =
    (match tagP [','] i with
    | none => some ([], i)
    | some i1 =>
      if i.length ≤ i1.length then none
      else
        match elementV i1 with
        | none => some ([], i)
        | some (v, i2) =>
          if i1.length ≤ i2.length then none
          else
            match sepValuesRest i2 with
            | none => none
            | some (vs, r) => some (v :: vs, r)) := by
  rw [sepValuesRest.eq_def]
  split
  · rename_i heq
    rw [heq]
  · rename_i i1 heq
    rw [heq]
    split
    · rename_i h
      simp only [dif_pos h, if_pos h]
    · rename_i h
      simp only [dif_neg h, if_neg h]
      split
      · rfl
      · split
        · rename_i h3
          simp only [dif_pos h3, if_pos h3]
        · rename_i h3
          simp only [dif_neg h3, if_neg h3]

theorem pairP_eq (i : List Char) : pairP i =
    (match key i with
    | none => none
    | some (k, i1) =>
      match tagP [':'] i1 with
      | none => none
      | some i2 =>
        match elementV i2 with
        | none => none
        | some (v, r) => some ((k, v), r)) := by
  rw [pairP.eq_def]
  split
  · rename_i heq
    rw [heq]
  · rename_i k i1 heq
    rw [heq]
    dsimp only
    split
    · rename_i heq2
      rw [heq2]
    · rename_i i2 heq2
      rw [heq2]

theorem sepPairs_eq (i : List Char) : sepPairs i =
    (match pairP i with
    | none => some ([], i)
    | some (p, i1) =>
      if i.length ≤ i1.length then none
      else
        match sepPairsRest i1 with
        | none => none
        | some (ps, r) => some (p :: ps, r)) := by
  rw [sepPairs.eq_def]
  split
  · rfl
  · split
    · rename_i h
      simp only [dif_pos h, if_pos h]
    · rename_i h
      simp only [dif_neg h, if_neg h]

theorem sepPairsRest_eq (i : List Char) : sepPairsRest i =
    (match tagP [','] i with
    | none => some ([], i)
    | some i1 =>
      if i.length ≤ i1.length then none
      else
        match pairP i1 with
        | none => some ([], i)
        | some (p, i2) =>
          if i1.length ≤ i2.length then none
          else
            match sepPairsRest i2 with
            | none => none
            | some (ps, r) => some (p :: ps, r)) := by
  rw [sepPairsRest.eq_def]
  split
  · rename_i heq
    rw [heq]
  · rename_i i1 heq
    rw [heq]
    split
    · rename_i h
      simp only [dif_pos h, if_pos h]
    · rename_i h
      simp only [dif_neg h, if_neg h]
      split
      · rfl
      · split
        · rename_i h3
          simp only [dif_pos h3, if_pos h3]
        · rename_i h3
          simp only [dif_neg h3, if_neg h3]

/-!
Step lemmas: one-step evaluation rules for the mutually recursive parsers, used to
evaluate them on concrete (and partially symbolic) inputs.
-/

theorem object_not_brace {i : List Char} (h : tagP ['\x7b'] i = none) : object i = none := by
  rw [object_eq, h]

theorem array_not_bracket {i : List Char} (h : tagP ['['] i = none) : array i = none := by
  rw [array_eq, h]

theorem value_object {i : List Char} {m : List (List Char × JsonValue)} {r : List Char}
    (h : object (multispace0 i) = some (m, r)) :
    value i = some (JsonValue.Object m, multispace0 r) := by
  rw [value.eq_def, h]

theorem value_array {i : List Char} {a : List JsonValue} {r : List Char}
    (h1 : object (multispace0 i) = none) (h2 : array (multispace0 i) = some (a, r)) :
    value i = some (JsonValue.Array a, multispace0 r) := by
  rw [value.eq_def, h1, h2]

theorem value_str {i s r : List Char}
    (h1 : object (multispace0 i) = none) (h2 : array (multispace0 i) = none)
    (h3 : string (multispace0 i) = some (s, r)) :
    value i = some (JsonValue.Str s, multispace0 r) := by
  rw [value.eq_def, h1, h2, h3]

theorem value_num {i : List Char} {q : ℚ} {r : List Char}
    (h1 : object (multispace0 i) = none) (h2 : array (multispace0 i) = none)
    (h3 : string (multispace0 i) = none) (h4 : double (multispace0 i) = some (q, r)) :
    value i = some (JsonValue.Num q, multispace0 r) := by
  rw [value.eq_def, h1, h2, h3, h4]

theorem value_boolean {i : List Char} {b : Bool} {r : List Char}
    (h1 : object (multispace0 i) = none) (h2 : array (multispace0 i) = none)
    (h3 : string (multispace0 i) = none) (h4 : double (multispace0 i) = none)
    (h5 : boolean (multispace0 i) = some (b, r)) :
    value i = some (JsonValue.Boolean b, multispace0 r) := by
  rw [value.eq_def, h1, h2, h3, h4, h5]

theorem value_null_out {i : List Char} {v : JsonValue} {r : List Char}
    (h1 : object (multispace0 i) = none) (h2 : array (multispace0 i) = none)
    (h3 : string (multispace0 i) = none) (h4 : double (multispace0 i) = none)
    (h5 : boolean (multispace0 i) = none) (h6 : null (multispace0 i) = some (v, r)) :
    value i = some (v, multispace0 r) := by
  rw [value.eq_def, h1, h2, h3, h4, h5, h6]

theorem value_fail {i : List Char}
    (h1 : object (multispace0 i) = none) (h2 : array (multispace0 i) = none)
    (h3 : string (multispace0 i) = none) (h4 : double (multispace0 i) = none)
    (h5 : boolean (multispace0 i) = none) (h6 : null (multispace0 i) = none) :
    value i = none := by
  rw [value.eq_def, h1, h2, h3, h4, h5, h6]

theorem root_object_some {i : List Char} {m : List (List Char × JsonValue)}
    {r : List Char} (h : object (multispace0 i) = some (m, r)) :
    root i = some (JsonValue.Object m, multispace0 r) := by
  simp only [root, h]

theorem root_array_some {i : List Char} {a : List JsonValue} {r : List Char}
    (h1 : object (multispace0 i) = none) (h2 : array (multispace0 i) = some (a, r)) :
    root i = some (JsonValue.Array a, multispace0 r) := by
  simp only [root, h1, h2]

theorem root_fail {i : List Char}
    (h1 : object (multispace0 i) = none) (h2 : array (multispace0 i) = none) :
    root i = none := by
  simp only [root, h1, h2]

theorem elementV_some {i : List Char} {v : JsonValue} {r : List Char}
    (h : value (multispace0 i) = some (v, r)) :
    elementV i = some (v, multispace0 r) := by
  rw [elementV.eq_def, h]

theorem elementV_none {i : List Char} (h : value (multispace0 i) = none) :
    elementV i = none := by
  rw [elementV.eq_def, h]

theorem sepValues_nil {i : List Char} (h : elementV i = none) :
    sepValues i = some ([], i) := by
  rw [sepValues_eq, h]

theorem sepValues_cons {i i1 : List Char} {v : JsonValue} {vs : List JsonValue}
    {r : List Char} (h1 : elementV i = some (v, i1)) (hlen : i1.length < i.length)
    (h2 : sepValuesRest i1 = some (vs, r)) : sepValues i = some (v :: vs, r) := by
  rw [sepValues_eq, h1]
  dsimp only
  rw [if_neg (by omega), h2]

theorem sepValuesRest_stop {i : List Char} (h : tagP [','] i = none) :
    sepValuesRest i = some ([], i) := by
  rw [sepValuesRest_eq, h]

theorem sepValuesRest_backtrack {i i1 : List Char} (h1 : tagP [','] i = some i1)
    (hlen : i1.length < i.length) (h2 : elementV i1 = none) :
    sepValuesRest i = some ([], i) := by
  rw [sepValuesRest_eq, h1]
  dsimp only
  rw [if_neg (by omega), h2]

theorem sepValuesRest_cons {i i1 i2 : List Char} {v : JsonValue} {vs : List JsonValue}
    {r : List Char} (h1 : tagP [','] i = some i1) (hlen1 : i1.length < i.length)
    (h2 : elementV i1 = some (v, i2)) (hlen2 : i2.length < i1.length)
    (h3 : sepValuesRest i2 = some (vs, r)) : sepValuesRest i = some (v :: vs, r) := by
  rw [sepValuesRest_eq, h1]
  dsimp only
  rw [if_neg (by omega), h2]
  dsimp only
  rw [if_neg (by omega), h3]

theorem key_some {i s r : List Char} (h : string (multispace0 i) = some (s, r)) :
    key i = some (s, multispace0 r) := by
  simp only [key, h]

theorem key_none {i : List Char} (h : string (multispace0 i) = none) : key i = none := by
  simp only [key, h]

theorem pairP_mk {i k i1 i2 : List Char} {v : JsonValue} {r : List Char}
    (h1 : key i = some (k, i1)) (h2 : tagP [':'] i1 = some i2)
    (h3 : elementV i2 = some (v, r)) : pairP i = some ((k, v), r) := by
  rw [pairP_eq, h1]
  dsimp only
  rw [h2]
  dsimp only
  rw [h3]

theorem pairP_none_key {i : List Char} (h : key i = none) : pairP i = none := by
  rw [pairP_eq, h]

theorem sepPairs_nil {i : List Char} (h : pairP i = none) : sepPairs i = some ([], i) := by
  rw [sepPairs_eq, h]

theorem sepPairs_cons {i i1 : List Char} {p : List Char × JsonValue}
    {ps : List (List Char × JsonValue)} {r : List Char} (h1 : pairP i = some (p, i1))
    (hlen : i1.length < i.length) (h2 : sepPairsRest i1 = some (ps, r)) :
    sepPairs i = some (p :: ps, r) := by
  rw [sepPairs_eq, h1]
  dsimp only
  rw [if_neg (by omega), h2]

theorem sepPairsRest_stop {i : List Char} (h : tagP [','] i = none) :
    sepPairsRest i = some ([], i) := by
  rw [sepPairsRest_eq, h]

theorem sepPairsRest_backtrack {i i1 : List Char} (h1 : tagP [','] i = some i1)
    (hlen : i1.length < i.length) (h2 : pairP i1 = none) :
    sepPairsRest i = some ([], i) := by
  rw [sepPairsRest_eq, h1]
  dsimp only
  rw [if_neg (by omega), h2]

theorem sepPairsRest_cons {i i1 i2 : List Char} {p : List Char × JsonValue}
    {ps : List (List Char × JsonValue)} {r : List Char} (h1 : tagP [','] i = some i1)
    (hlen1 : i1.length < i.length) (h2 : pairP i1 = some (p, i2))
    (hlen2 : i2.length < i1.length) (h3 : sepPairsRest i2 = some (ps, r)) :
    sepPairsRest i = some (p :: ps, r) := by
  rw [sepPairsRest_eq, h1]
  dsimp only
  rw [if_neg (by omega), h2]
  dsimp only
  rw [if_neg (by omega), h3]

theorem array_mk {i i1 i2 r : List Char} {vs : List JsonValue}
    (h1 : tagP ['['] i = some i1) (h2 : sepValues i1 = some (vs, i2))
    (h3 : tagP [']'] i2 = some r) : array i = some (vs, r) := by
  rw [array_eq, h1]
  dsimp only
  rw [h2]
  dsimp only
  rw [h3]

theorem array_no_close {i i1 i2 : List Char} {vs : List JsonValue}
    (h1 : tagP ['['] i = some i1) (h2 : sepValues i1 = some (vs, i2))
    (h3 : tagP [']'] i2 = none) : array i = none := by
  rw [array_eq, h1]
  dsimp only
  rw [h2]
  dsimp only
  rw [h3]

theorem object_mk {i i1 i2 r : List Char} {pv : List (List Char × JsonValue)}
    (h1 : tagP ['\x7b'] i = some i1) (h2 : sepPairs i1 = some (pv, i2))
    (h3 : tagP ['\x7d'] i2 = some r) : object i = some (hmCollect pv, r) := by
  rw [object_eq, h1]
  dsimp only
  rw [h2]
  dsimp only
  rw [h3]

theorem object_no_close {i i1 i2 : List Char} {pv : List (List Char × JsonValue)}
    (h1 : tagP ['\x7b'] i = some i1) (h2 : sepPairs i1 = some (pv, i2))
    (h3 : tagP ['\x7d'] i2 = none) : object i = none := by
  rw [object_eq, h1]
  dsimp only
  rw [h2]
  dsimp only
  rw [h3]

/-- Spec-side definition for claim C7, written from the amended grammar's words: after an
optional single plus or minus sign, the remaining prefix must start with a digit, or
with a dot immediately followed by a digit. -/
def numberAcceptSpec (i : List Char) : Bool :=
  match (signPart i).2 with
  | c :: r =>
    c.isDigit || (c == '.' && (match r with | d :: _ => d.isDigit | [] => false))
  | [] => false

/-- Spec-side grammar for claim C7: the shape of a token accepted by the number parser.
An optional sign, then either a nonempty digit run with an optional fractional part or
a dot with a nonempty digit run, then an optional exponent with a nonempty digit run. -/
def FloatTokSpec (t : List Char) : Prop :=
  ∃ s d f e, t = s ++ d ++ f ++ e ∧
    (s = [] ∨ s = ['+'] ∨ s = ['-']) ∧
    ((d ≠ [] ∧ d.all Char.isDigit ∧
       (f = [] ∨ ∃ fd, f = '.' :: fd ∧ fd.all Char.isDigit)) ∨
     (d = [] ∧ ∃ fd, fd ≠ [] ∧ fd.all Char.isDigit ∧ f = '.' :: fd)) ∧
    (e = [] ∨ ∃ c es ed, (c = 'e' ∨ c = 'E') ∧ (es = [] ∨ es = ['+'] ∨ es = ['-']) ∧
       ed ≠ [] ∧ ed.all Char.isDigit ∧ e = c :: (es ++ ed))

/-- Model of overflow in the Rust `f64` conversion: any rational of magnitude at least
2^1024 lies beyond every finite IEEE-754 binary64 value, so the reference conversion
turns it into an infinity. -/
def f64Overflows (q : ℚ) : Prop := (2 : ℚ) ^ 1024 ≤ |q|

/-! Basic facts about the lexical helpers. -/

theorem tagP_eq_some {t i r : List Char} : tagP t i = some r ↔ i = t ++ r := by
  constructor
  · intro h
    simp only [tagP] at h
    split at h
    · rename_i hc
      injection h with h
      rw [← hc, ← h]
      exact (List.take_append_drop t.length i).symm
    · exact Option.noConfusion h
  · intro h
    subst h
    simp [tagP, List.take_left, List.drop_left]

theorem multispace0_append {ws : List Char} (l : List Char)
    (h : ∀ c ∈ ws, isWsChar c = true) : multispace0 (ws ++ l) = multispace0 l := by
  induction ws with
  | nil => rfl
  | cons c t ih =>
    have hc : isWsChar c = true := h c (List.mem_cons_self c t)
    have ht : ∀ x ∈ t, isWsChar x = true := fun x hx => h x (List.mem_cons_of_mem c hx)
    simp only [List.cons_append, multispace0, List.dropWhile_cons, hc, if_true]
    exact ih ht

theorem multispace0_not_ws {c : Char} (l : List Char) (h : isWsChar c = false) :
    multispace0 (c :: l) = c :: l := by
  simp [multispace0, List.dropWhile_cons, h]

theorem drop_takeWhile_length (p : Char → Bool) (l : List Char) :
    l.drop (l.takeWhile p).length = l.dropWhile p := by
  induction l with
  | nil => rfl
  | cons c t ih =>
    by_cases h : p c
    · simp [List.takeWhile_cons, List.dropWhile_cons, h, ih]
    · simp [List.takeWhile_cons, List.dropWhile_cons, h]

theorem normal_append {i t r : List Char} (h : normal i = some (t, r)) :
    i = t ++ r ∧ t ≠ [] := by
  simp only [normal] at h
  split at h
  · exact Option.noConfusion h
  · rename_i hne
    injection h with h
    injection h with h1 h2
    subst h1
    subst h2
    refine ⟨?_, by simpa [List.isEmpty_iff] using hne⟩
    rw [drop_takeWhile_length]
    exact (List.takeWhile_append_dropWhile isNormalChar i).symm

theorem parse_hex_append {i m r : List Char} (h : parse_hex i = some (m, r)) :
    i = m ++ r := by
  simp only [parse_hex] at h
  split at h
  · split at h
    · injection h with h
      injection h with h1 h2
      rw [← h1, ← h2]
      exact (List.take_append_drop 5 _).symm
    · exact Option.noConfusion h
  · exact Option.noConfusion h

theorem escapable_append {i m r : List Char} (h : escapable i = some (m, r)) :
    i = m ++ r := by
  simp only [escapable] at h
  split at h <;>
    first
      | (injection h with h
         injection h with h1 h2
         rw [← h1, ← h2]
         simp)
      | exact parse_hex_append h

theorem escapedGo_append :
    ∀ (f : Nat) (i m r : List Char), escapedGo f i = some (m, r) → i = m ++ r := by
  intro f
  induction f with
  | zero => exact fun i m r h => Option.noConfusion h
  | succ f ih =>
    intro i m r h
    match i with
    | [] =>
      simp only [escapedGo] at h
      injection h with h
      injection h with h1 h2
      rw [← h1, ← h2]
      rfl
    | c :: rest =>
      simp only [escapedGo] at h
      rcases hn : normal (c :: rest) with _ | ⟨t, i2⟩ <;> simp only [hn] at h
      · split at h
        · rename_i hc
          rcases he : escapable rest with _ | ⟨m1, i2⟩ <;> simp only [he] at h
          · exact Option.noConfusion h
          · split at h
            · injection h with h
              injection h with h1 h2
              rw [← h1, ← h2, List.append_nil]
            · rcases hg : escapedGo f i2 with _ | ⟨m2, r2⟩ <;> simp only [hg] at h
              · exact Option.noConfusion h
              · injection h with h
                injection h with h1 h2
                rw [← h1, ← h2]
                have hre := escapable_append he
                have hr2 := ih i2 m2 r2 hg
                subst hc
                rw [hre, hr2]
                simp
        · injection h with h
          injection h with h1 h2
          rw [← h1, ← h2]
          rfl
      · split at h
        · rename_i hemp
          injection h with h
          injection h with h1 h2
          rw [← h1, ← h2, List.append_nil]
        · rcases hg : escapedGo f i2 with _ | ⟨m2, r2⟩ <;> simp only [hg] at h
          · exact Option.noConfusion h
          · injection h with h
            injection h with h1 h2
            rw [← h1, ← h2]
            have hn2 := normal_append hn
            have hr2 := ih i2 m2 r2 hg
            rw [List.append_assoc, ← hr2]
            exact hn2.1

theorem parse_str_append {i m r : List Char} (h : parse_str i = some (m, r)) :
    i = m ++ r ∧ m ≠ [] := by
  simp only [parse_str] at h
  rcases hg : escapedGo (i.length + 1) i with _ | ⟨m1, r1⟩ <;> simp only [hg] at h
  · exact Option.noConfusion h
  · split at h
    · exact Option.noConfusion h
    · rename_i hne
      injection h with h
      injection h with h1 h2
      have happ := escapedGo_append _ _ _ _ hg
      subst h1
      constructor
      · rw [← h2, happ, List.drop_left]
      · simpa [List.isEmpty_iff] using hne

/-- Decomposition of a successful `string` parse: either the special-cased empty literal,
whose output is the two quote characters, or a quote-delimited scan whose output is
exactly the text standing between the quotes in the input. -/
theorem string_append {i out r : List Char} (h : string i = some (out, r)) :
    (out = ['"', '"'] ∧ i = '"' :: '"' :: r) ∨ i = '"' :: (out ++ '"' :: r) := by
  simp only [string] at h
  rcases h0 : tagP ['"', '"'] i with _ | r0 <;> simp only [h0] at h
  · rcases h1 : tagP ['"'] i with _ | i1 <;> simp only [h1] at h
    · exact Option.noConfusion h
    · rcases h2 : parse_str i1 with _ | ⟨s, i2⟩ <;> simp only [h2] at h
      · exact Option.noConfusion h
      · rcases h3 : tagP ['"'] i2 with _ | r1 <;> simp only [h3] at h
        · exact Option.noConfusion h
        · injection h with h
          injection h with ha hb
          right
          have e1 := tagP_eq_some.mp h1
          have e2 := (parse_str_append h2).1
          have e3 := tagP_eq_some.mp h3
          rw [e1, e2, e3, ← ha, ← hb]
          rfl
  · injection h with h
    injection h with ha hb
    left
    have e0 := tagP_eq_some.mp h0
    rw [← ha, ← hb]
    exact ⟨rfl, by simpa using e0⟩

/-!
Claims.
-/

/-- Claim C1 (counterexample): the two-character input consisting of two quote
characters is a well-formed (empty) string literal, yet the parsed payload is the two
quote characters themselves, not the raw (empty) source text between the quotes. -/
theorem C1_counterexample :
    value ['"', '"'] = some (JsonValue.Str ['"', '"'], []) ∧
    ['"', '"'] ≠ ([] : List Char) := by
  constructor
  · have h3 : string (multispace0 ['"', '"']) = some (['"', '"'], []) := by decide
    exact value_str (object_not_brace (by decide)) (array_not_bracket (by decide)) h3
  · decide

/-- Claim C1 (amended): for every successful string-literal parse other than the
special-cased empty literal, the payload is exactly the raw source text standing
between the two quotes, escape sequences left as written (never decoded); the empty
literal instead yields the two quote characters as its payload.  In particular the
literal containing backslash-r yields the 7-character raw payload, not a carriage
return. -/
theorem C1_raw_string_payload :
    (∀ i out r, string i = some (out, r) →
      (out = ['"', '"'] ∧ i = '"' :: '"' :: r) ∨ i = '"' :: (out ++ '"' :: r)) ∧
    value ['"', 'h', 'e', '\\', 'r', 'l', 'l', 'o', '"'] =
      some (JsonValue.Str ['h', 'e', '\\', 'r', 'l', 'l', 'o'], []) ∧
    ['h', 'e', '\\', 'r', 'l', 'l', 'o'].length = 7 := by
  refine ⟨fun i out r h => string_append h, ?_, by decide⟩
  have h3 : string (multispace0 ['"', 'h', 'e', '\\', 'r', 'l', 'l', 'o', '"']) =
      some (['h', 'e', '\\', 'r', 'l', 'l', 'o'], []) := by decide
  exact value_str (object_not_brace (by decide)) (array_not_bracket (by decide)) h3

/-- Witness for C1: instantiating the decomposition on the literal containing the
single character a. -/
theorem C1_raw_string_payload_witness :
    (['a'] = ['"', '"'] ∧ ['"', 'a', '"'] = '"' :: '"' :: []) ∨
    ['"', 'a', '"'] = '"' :: (['a'] ++ '"' :: []) :=
  C1_raw_string_payload.1 ['"', 'a', '"'] ['a'] [] (by decide)

/-- Claim C2: the root entry point only ever returns an object or an array, and on any
input where the value parser succeeds with a scalar (string, number, boolean or null),
root fails. -/
theorem C2_root_rejects_bare_scalars :
    (∀ i v r, root i = some (v, r) →
      (∃ m, v = JsonValue.Object m) ∨ (∃ a, v = JsonValue.Array a)) ∧
    (∀ i v r, value i = some (v, r) → (∀ m, v ≠ JsonValue.Object m) →
      (∀ a, v ≠ JsonValue.Array a) → root i = none) := by
  constructor
  · intro i v r h
    simp only [root] at h
    rcases hobj : object (multispace0 i) with _ | ⟨m, r0⟩ <;> simp only [hobj] at h
    · rcases harr : array (multispace0 i) with _ | ⟨a, r0⟩ <;> simp only [harr] at h
      · exact Option.noConfusion h
      · injection h with h
        injection h with ha hb
        exact Or.inr ⟨a, ha.symm⟩
    · injection h with h
      injection h with ha hb
      exact Or.inl ⟨m, ha.symm⟩
  · intro i v r h hno hna
    rw [value.eq_def] at h
    rcases hobj : object (multispace0 i) with _ | ⟨m, r0⟩ <;> simp only [hobj] at h
    · rcases harr : array (multispace0 i) with _ | ⟨a, r0⟩ <;> simp only [harr] at h
      · simp only [root, hobj, harr]
      · injection h with h
        injection h with ha hb
        exact absurd ha.symm (hna a)
    · injection h with h
      injection h with ha hb
      exact absurd ha.symm (hno m)

/-- Witness for C2: the bare scalar 42 parses as a value but is rejected by root. -/
theorem C2_root_rejects_bare_scalars_witness : root ['4', '2'] = none :=
  C2_root_rejects_bare_scalars.2 ['4', '2'] (JsonValue.Num 42) []
    (by
      have h4 : double (multispace0 ['4', '2']) = some ((42 : ℚ), []) := by decide
      exact value_num (object_not_brace (by decide)) (array_not_bracket (by decide))
        (by decide) h4)
    (fun m hm => JsonValue.noConfusion hm)
    (fun a ha => JsonValue.noConfusion ha)

/-- Claim C3 (counterexample): parsing the two-character input of two quotes succeeds,
but the payload is not the empty text between the quotes: it is the two quote
characters themselves. -/
theorem C3_counterexample :
    value ['"', '"'] = some (JsonValue.Str ['"', '"'], []) ∧
    ¬ value ['"', '"'] = some (JsonValue.Str [], []) := by
  have h : value ['"', '"'] = some (JsonValue.Str ['"', '"'], []) := by
    have h3 : string (multispace0 ['"', '"']) = some (['"', '"'], []) := by decide
    exact value_str (object_not_brace (by decide)) (array_not_bracket (by decide)) h3
  refine ⟨h, ?_⟩
  rw [h]
  intro hc
  injection hc with hc
  injection hc with hc1 hc2
  exact List.noConfusion (JsonValue.Str.inj hc1)

/-- The escapes accepted after a backslash, characterized from `escapable`: one of the
eight single-character escapes, or a five-character scan headed by u whose following
four characters are each a hex digit or the letter u. -/
theorem escapable_characterization (i out r : List Char) :
    escapable i = some (out, r) ↔
      (((out = ['"'] ∨ out = ['\\'] ∨ out = ['/'] ∨ out = ['b'] ∨ out = ['f'] ∨
         out = ['n'] ∨ out = ['r'] ∨ out = ['t']) ∧ i = out ++ r) ∨
       (∃ t4, out = 'u' :: t4 ∧ t4.length = 4 ∧ (∀ c ∈ t4, isHexOrU c = true) ∧
         i = out ++ r)) := by
  constructor
  · intro h
    rcases i with _ | ⟨c, tail⟩
    · exact Option.noConfusion h
    · simp only [escapable] at h
      split at h <;>
        first
          | (rename_i r1 heq
             injection heq with hc ht
             subst hc
             subst ht
             injection h with h
             injection h with h1 h2
             subst h1
             subst h2
             simp)
          | (right
             simp only [parse_hex] at h
             split at h
             · rename_i utail heq
               injection heq with hc ht
               subst hc
               subst ht
               split at h
               · rename_i hc
                 injection h with h
                 injection h with h1 h2
                 have htake5 : ('u' :: tail).take 5 = 'u' :: tail.take 4 := rfl
                 refine ⟨tail.take 4, ?_, ?_, ?_, ?_⟩
                 · rw [← h1, htake5]
                 · rw [htake5] at hc
                   simp only [List.length_cons, List.length_take] at hc ⊢
                   omega
                 · intro c2 hcmem
                   have hmem5 : c2 ∈ ('u' :: tail).take 5 := by
                     rw [htake5]
                     exact List.mem_cons_of_mem 'u' hcmem
                   exact List.all_eq_true.mp hc.2 c2 hmem5
                 · rw [← h1, ← h2]
                   exact (List.take_append_drop 5 _).symm
               · exact Option.noConfusion h
             · exact Option.noConfusion h)
  · intro h
    rcases h with ⟨hshape, happ⟩ | ⟨t4, hout, hlen, hall, happ⟩
    · rcases hshape with h|h|h|h|h|h|h|h <;> (subst h; subst happ; rfl)
    · subst hout
      subst happ
      show parse_hex ('u' :: (t4 ++ r)) = some ('u' :: t4, r)
      have htake : ('u' :: (t4 ++ r)).take 5 = 'u' :: t4 := by
        have : (t4 ++ r).take 4 = t4 := by
          rw [← hlen, List.take_left]
        simp [List.take_succ_cons, this]
      have hdrop : ('u' :: (t4 ++ r)).drop 5 = r := by
        have : (t4 ++ r).drop 4 = r := by
          rw [← hlen, List.drop_left]
        simp [List.drop_succ_cons, this]
      simp only [parse_hex]
      rw [if_pos ?side]
      case side =>
        constructor
        · rw [htake]
          simp [hlen]
        · rw [htake]
          simp only [List.all_cons, Bool.and_eq_true]
          exact ⟨by decide, List.all_eq_true.mpr hall⟩
      rw [htake, hdrop]

/-- Claim C4 (counterexample): the escape backslash-u-u-u-u-u is accepted by the string
parser and preserved raw, although u is not a hexadecimal digit, so the escape is not
of the form u followed by exactly 4 hexadecimal digits demanded by the claim. -/
theorem C4_counterexample :
    value ['"', '\\', 'u', 'u', 'u', 'u', 'u', '"'] =
      some (JsonValue.Str ['\\', 'u', 'u', 'u', 'u', 'u'], []) ∧
    isAsciiHexDigit 'u' = false := by
  constructor
  · have h3 : string (multispace0 ['"', '\\', 'u', 'u', 'u', 'u', 'u', '"']) =
        some (['\\', 'u', 'u', 'u', 'u', 'u'], []) := by decide
    exact value_str (object_not_brace (by decide)) (array_not_bracket (by decide)) h3
  · decide

/-- Claim C4 (amended): inside a string literal a backslash must be followed by one of
the eight single-character escapes, or by u followed by exactly four characters each of
which is a hexadecimal digit or the letter u (the five-character scanning window uses
the class hex-digit-or-u for every position); the malformed escape in backslash-u-1-2-g-4
makes the string parse fail, while backslash-u-1-2-3-4 succeeds and is preserved raw. -/
theorem C4_escape_validation :
    (∀ i out r, escapable i = some (out, r) ↔
      (((out = ['"'] ∨ out = ['\\'] ∨ out = ['/'] ∨ out = ['b'] ∨ out = ['f'] ∨
         out = ['n'] ∨ out = ['r'] ∨ out = ['t']) ∧ i = out ++ r) ∨
       (∃ t4, out = 'u' :: t4 ∧ t4.length = 4 ∧ (∀ c ∈ t4, isHexOrU c = true) ∧
         i = out ++ r))) ∧
    string ['"', '\\', 'u', '1', '2', 'g', '4', '"'] = none ∧
    value ['"', '\\', 'u', '1', '2', '3', '4', '"'] =
      some (JsonValue.Str ['\\', 'u', '1', '2', '3', '4'], []) := by
  refine ⟨escapable_characterization, by decide, ?_⟩
  have h3 : string (multispace0 ['"', '\\', 'u', '1', '2', '3', '4', '"']) =
      some (['\\', 'u', '1', '2', '3', '4'], []) := by decide
  exact value_str (object_not_brace (by decide)) (array_not_bracket (by decide)) h3

/-- Witness for C4: the escape token n is accepted with the single character n as its
raw output. -/
theorem C4_escape_validation_witness : escapable ['n', 'x'] = some (['n'], ['x']) :=
  (C4_escape_validation.1 ['n', 'x'] ['n'] ['x']).mpr
    (Or.inl ⟨by simp, by decide⟩)

/-- Claim C3 (amended): parsing the two-character empty string literal succeeds through
the special-cased direct match of the two-quote tag; the general scanning rule indeed
fails on an immediately closing quote (so the special case is needed), but the produced
payload is the two-character matched tag consisting of the two quote characters, not
the empty text between them. -/
theorem C3_empty_string_literal :
    value ['"', '"'] = some (JsonValue.Str ['"', '"'], []) ∧
    parse_str ['"'] = none := by
  constructor
  · have h3 : string (multispace0 ['"', '"']) = some (['"', '"'], []) := by decide
    exact value_str (object_not_brace (by decide)) (array_not_bracket (by decide)) h3
  · decide

theorem hmInsert_keys (m : List (List Char × JsonValue)) (k : List Char) (v : JsonValue) :
    (hmInsert m k v).map Prod.fst =
      if k ∈ m.map Prod.fst then m.map Prod.fst else m.map Prod.fst ++ [k] := by
  induction m with
  | nil => simp [hmInsert]
  | cons p t ih =>
    obtain ⟨k1, v1⟩ := p
    by_cases h : k1 = k
    · subst h
      simp [hmInsert]
    · simp only [hmInsert, if_neg h, List.map_cons, ih]
      by_cases hm : k ∈ t.map Prod.fst
      · simp [hm]
      · simp [hm, Ne.symm h]

theorem hmInsert_nodup {m : List (List Char × JsonValue)} (k : List Char) (v : JsonValue)
    (h : (m.map Prod.fst).Nodup) : ((hmInsert m k v).map Prod.fst).Nodup := by
  rw [hmInsert_keys]
  split
  · exact h
  · rename_i hk
    simp [List.nodup_append, h, hk]

theorem hmCollect_keys_nodup (pv : List (List Char × JsonValue)) :
    ((hmCollect pv).map Prod.fst).Nodup := by
  have hgen : ∀ acc : List (List Char × JsonValue), (acc.map Prod.fst).Nodup →
      ((pv.foldl (fun m kv => hmInsert m kv.1 kv.2) acc).map Prod.fst).Nodup := by
    induction pv with
    | nil => exact fun acc h => h
    | cons p t ih =>
      intro acc hacc
      simp only [List.foldl_cons]
      exact ih _ (hmInsert_nodup _ _ hacc)
  exact hgen [] (by simp)

theorem filter_key_nil_of_not_mem {t : List (List Char × JsonValue)} {k : List Char}
    (h : ¬ k ∈ t.map Prod.fst) : t.filter (fun e => e.1 == k) = [] := by
  induction t with
  | nil => rfl
  | cons p t ih =>
    simp only [List.map_cons, List.mem_cons] at h
    push_neg at h
    rw [List.filter_cons_of_neg (by simp [beq_iff_eq]; exact fun he => h.1 he.symm)]
    exact ih h.2

theorem hmInsert_filter {m : List (List Char × JsonValue)} (k : List Char)
    (v : JsonValue) (h : (m.map Prod.fst).Nodup) :
    (hmInsert m k v).filter (fun e => e.1 == k) = [(k, v)] := by
  induction m with
  | nil => simp [hmInsert]
  | cons p t ih =>
    obtain ⟨k1, v1⟩ := p
    simp only [List.map_cons, List.nodup_cons] at h
    by_cases hk : k1 = k
    · subst hk
      rw [show hmInsert ((k1, v1) :: t) k1 v = (k1, v) :: t from by simp [hmInsert]]
      rw [List.filter_cons_of_pos (by simp)]
      rw [filter_key_nil_of_not_mem h.1]
    · simp only [hmInsert, if_neg hk]
      rw [List.filter_cons_of_neg (by simp [beq_iff_eq, hk])]
      exact ih h.2

theorem hmCollect_last_wins (pv : List (List Char × JsonValue)) (k : List Char)
    (v : JsonValue) :
    (hmCollect (pv ++ [(k, v)])).filter (fun e => e.1 == k) = [(k, v)] := by
  have hsplit : hmCollect (pv ++ [(k, v)]) = hmInsert (hmCollect pv) k v := by
    simp [hmCollect, List.foldl_append]
  rw [hsplit]
  exact hmInsert_filter k v (hmCollect_keys_nodup pv)

/-- Claim C6: parsing an object with duplicated keys succeeds and the resulting mapping
has exactly one entry per key, holding the value of the last pair in source order: the
concrete duplicate-key object collapses to the single later binding; every mapping an
object parse produces has pairwise distinct keys; and collecting any pair list whose
last element binds k leaves exactly one entry for k, carrying that last value. -/
theorem C6_duplicate_keys_last_wins :
    object ['\x7b', '"', 'a', '"', ':', '1', ',', '"', 'a', '"', ':', '2', '\x7d'] =
      some ([(['a'], JsonValue.Num 2)], []) ∧
    (∀ i m r, object i = some (m, r) → (m.map Prod.fst).Nodup) ∧
    (∀ pv k v, (hmCollect (pv ++ [(k, v)])).filter (fun e => e.1 == k) = [(k, v)]) := by
  refine ⟨?_, ?_, hmCollect_last_wins⟩
  · have hv1 : value ['1', ',', '"', 'a', '"', ':', '2', '\x7d'] =
        some (JsonValue.Num 1, [',', '"', 'a', '"', ':', '2', '\x7d']) := by
      have h4 : double (multispace0 ['1', ',', '"', 'a', '"', ':', '2', '\x7d']) =
          some ((1 : ℚ), [',', '"', 'a', '"', ':', '2', '\x7d']) := by decide
      exact value_num (object_not_brace (by decide)) (array_not_bracket (by decide))
        (by decide) h4
    have hv1m : value (multispace0 ['1', ',', '"', 'a', '"', ':', '2', '\x7d']) =
        some (JsonValue.Num 1, [',', '"', 'a', '"', ':', '2', '\x7d']) := hv1
    have hel1 : elementV ['1', ',', '"', 'a', '"', ':', '2', '\x7d'] =
        some (JsonValue.Num 1, [',', '"', 'a', '"', ':', '2', '\x7d']) :=
      elementV_some hv1m
    have hp1 : pairP ['"', 'a', '"', ':', '1', ',', '"', 'a', '"', ':', '2', '\x7d'] =
        some ((['a'], JsonValue.Num 1), [',', '"', 'a', '"', ':', '2', '\x7d']) := by
      have hs : string
          (multispace0 ['"', 'a', '"', ':', '1', ',', '"', 'a', '"', ':', '2', '\x7d']) =
          some (['a'], [':', '1', ',', '"', 'a', '"', ':', '2', '\x7d']) := by decide
      have hk : key ['"', 'a', '"', ':', '1', ',', '"', 'a', '"', ':', '2', '\x7d'] =
          some (['a'], [':', '1', ',', '"', 'a', '"', ':', '2', '\x7d']) := key_some hs
      have ht : tagP [':'] [':', '1', ',', '"', 'a', '"', ':', '2', '\x7d'] =
          some ['1', ',', '"', 'a', '"', ':', '2', '\x7d'] := by decide
      exact pairP_mk hk ht hel1
    have hv2 : value ['2', '\x7d'] = some (JsonValue.Num 2, ['\x7d']) := by
      have h4 : double (multispace0 ['2', '\x7d']) = some ((2 : ℚ), ['\x7d']) := by
        decide
      exact value_num (object_not_brace (by decide)) (array_not_bracket (by decide))
        (by decide) h4
    have hv2m : value (multispace0 ['2', '\x7d']) =
        some (JsonValue.Num 2, ['\x7d']) := hv2
    have hel2 : elementV ['2', '\x7d'] = some (JsonValue.Num 2, ['\x7d']) :=
      elementV_some hv2m
    have hp2 : pairP ['"', 'a', '"', ':', '2', '\x7d'] =
        some ((['a'], JsonValue.Num 2), ['\x7d']) := by
      have hs : string (multispace0 ['"', 'a', '"', ':', '2', '\x7d']) =
          some (['a'], [':', '2', '\x7d']) := by decide
      have hk : key ['"', 'a', '"', ':', '2', '\x7d'] =
          some (['a'], [':', '2', '\x7d']) := key_some hs
      have ht : tagP [':'] [':', '2', '\x7d'] = some ['2', '\x7d'] := by decide
      exact pairP_mk hk ht hel2
    have hstop : sepPairsRest ['\x7d'] = some ([], ['\x7d']) :=
      sepPairsRest_stop (by decide)
    have htc : tagP [','] [',', '"', 'a', '"', ':', '2', '\x7d'] =
        some ['"', 'a', '"', ':', '2', '\x7d'] := by decide
    have hrest : sepPairsRest [',', '"', 'a', '"', ':', '2', '\x7d'] =
        some ([(['a'], JsonValue.Num 2)], ['\x7d']) :=
      sepPairsRest_cons htc (by decide) hp2 (by decide) hstop
    have hsp : sepPairs ['"', 'a', '"', ':', '1', ',', '"', 'a', '"', ':', '2', '\x7d'] =
        some ([(['a'], JsonValue.Num 1), (['a'], JsonValue.Num 2)], ['\x7d']) :=
      sepPairs_cons hp1 (by decide) hrest
    have htb : tagP ['\x7b']
        ['\x7b', '"', 'a', '"', ':', '1', ',', '"', 'a', '"', ':', '2', '\x7d'] =
        some ['"', 'a', '"', ':', '1', ',', '"', 'a', '"', ':', '2', '\x7d'] := by decide
    have hte : tagP ['\x7d'] ['\x7d'] = some [] := by decide
    exact object_mk htb hsp hte
  · intro i m r h
    rw [object_eq] at h
    rcases h1 : tagP ['\x7b'] i with _ | i1 <;> simp only [h1] at h
    · exact Option.noConfusion h
    · rcases h2 : sepPairs i1 with _ | ⟨pv, i2⟩ <;> simp only [h2] at h
      · exact Option.noConfusion h
      · rcases h3 : tagP ['\x7d'] i2 with _ | r1 <;> simp only [h3] at h
        · exact Option.noConfusion h
        · injection h with h
          injection h with ha hb
          rw [← ha]
          exact hmCollect_keys_nodup pv

/-- Witness for C6: the mapping produced for the concrete duplicate-key object has
pairwise distinct keys. -/
theorem C6_duplicate_keys_last_wins_witness :
    (([(['a'], JsonValue.Num 2)] : List (List Char × JsonValue)).map Prod.fst).Nodup :=
  C6_duplicate_keys_last_wins.2.1
    ['\x7b', '"', 'a', '"', ':', '1', ',', '"', 'a', '"', ':', '2', '\x7d']
    [(['a'], JsonValue.Num 2)] [] C6_duplicate_keys_last_wins.1

/-- Claim C9: the value parser first trims leading whitespace (space, tab, carriage
return, line feed; prepending such whitespace never changes the result), then tries the
six productions in the fixed order object, array, string, number, boolean, null,
returning the first success with trailing whitespace trimmed from its remainder, and
fails only when all six fail. -/
theorem C9_value_dispatch_order :
    (∀ c, isWsChar c = true ↔ (c = ' ' ∨ c = '\t' ∨ c = '\r' ∨ c = '\n')) ∧
    (∀ ws i, (∀ c ∈ ws, isWsChar c = true) → value (ws ++ i) = value i) ∧
    (∀ i m r, object (multispace0 i) = some (m, r) →
      value i = some (JsonValue.Object m, multispace0 r)) ∧
    (∀ i a r, object (multispace0 i) = none → array (multispace0 i) = some (a, r) →
      value i = some (JsonValue.Array a, multispace0 r)) ∧
    (∀ i s r, object (multispace0 i) = none → array (multispace0 i) = none →
      string (multispace0 i) = some (s, r) →
      value i = some (JsonValue.Str s, multispace0 r)) ∧
    (∀ i q r, object (multispace0 i) = none → array (multispace0 i) = none →
      string (multispace0 i) = none → double (multispace0 i) = some (q, r) →
      value i = some (JsonValue.Num q, multispace0 r)) ∧
    (∀ i b r, object (multispace0 i) = none → array (multispace0 i) = none →
      string (multispace0 i) = none → double (multispace0 i) = none →
      boolean (multispace0 i) = some (b, r) →
      value i = some (JsonValue.Boolean b, multispace0 r)) ∧
    (∀ i v r, object (multispace0 i) = none → array (multispace0 i) = none →
      string (multispace0 i) = none → double (multispace0 i) = none →
      boolean (multispace0 i) = none → null (multispace0 i) = some (v, r) →
      value i = some (v, multispace0 r)) ∧
    (∀ i, object (multispace0 i) = none → array (multispace0 i) = none →
      string (multispace0 i) = none → double (multispace0 i) = none →
      boolean (multispace0 i) = none → null (multispace0 i) = none →
      value i = none) := by
  refine ⟨?_, ?_, ?_, ?_, ?_, ?_, ?_, ?_, ?_⟩
  · intro c
    constructor
    · intro h
      simp only [isWsChar, Bool.or_eq_true, beq_iff_eq] at h
      tauto
    · intro h
      simp only [isWsChar, Bool.or_eq_true, beq_iff_eq]
      tauto
  · intro ws i h
    rw [value.eq_def, value.eq_def, multispace0_append i h]
  · intro i m r h
    rw [value.eq_def, h]
  · intro i a r h1 h2
    rw [value.eq_def, h1, h2]
  · intro i s r h1 h2 h3
    rw [value.eq_def, h1, h2, h3]
  · intro i q r h1 h2 h3 h4
    rw [value.eq_def, h1, h2, h3, h4]
  · intro i b r h1 h2 h3 h4 h5
    rw [value.eq_def, h1, h2, h3, h4, h5]
  · intro i v r h1 h2 h3 h4 h5 h6
    rw [value.eq_def, h1, h2, h3, h4, h5, h6]
  · intro i h1 h2 h3 h4 h5 h6
    rw [value.eq_def, h1, h2, h3, h4, h5, h6]

/-- Witness for C9: a single leading space is trimmed before parsing the literal 42. -/
theorem C9_value_dispatch_order_witness :
    value ([' '] ++ ['4', '2']) = value ['4', '2'] :=
  C9_value_dispatch_order.2.1 [' '] ['4', '2'] (by decide)

/-- Claim C10: root never requires full consumption: whenever the input after leading
whitespace parses as an object or as an array, root succeeds and returns the leftover
after the parsed value and any trailing whitespace as the unconsumed remainder, even
when that leftover is not whitespace; in particular on bracket-bracket-space-x it
succeeds leaving the single character x. -/
theorem C10_root_returns_leftover :
    (∀ i m r, object (multispace0 i) = some (m, r) →
      root i = some (JsonValue.Object m, multispace0 r)) ∧
    (∀ i a r, object (multispace0 i) = none → array (multispace0 i) = some (a, r) →
      root i = some (JsonValue.Array a, multispace0 r)) ∧
    root ['[', ']', ' ', 'x'] = some (JsonValue.Array [], ['x']) := by
  refine ⟨?_, ?_, ?_⟩
  · intro i m r h
    rw [root, h]
  · intro i a r h1 h2
    rw [root, h1, h2]
  · have hval : value [']', ' ', 'x'] = none :=
      value_fail (object_not_brace (by decide)) (array_not_bracket (by decide))
        (by decide) (by decide) (by rfl) (by rfl)
    have hvalm : value (multispace0 [']', ' ', 'x']) = none := hval
    have hsv : sepValues [']', ' ', 'x'] = some ([], [']', ' ', 'x']) :=
      sepValues_nil (elementV_none hvalm)
    have ht1 : tagP ['['] ['[', ']', ' ', 'x'] = some [']', ' ', 'x'] := by decide
    have ht2 : tagP [']'] [']', ' ', 'x'] = some [' ', 'x'] := by decide
    have harr : array ['[', ']', ' ', 'x'] = some ([], [' ', 'x']) :=
      array_mk ht1 hsv ht2
    have harrm : array (multispace0 ['[', ']', ' ', 'x']) = some ([], [' ', 'x']) := harr
    exact root_array_some (object_not_brace (by decide)) harrm

/-- Witness for C10: the empty object followed by x is accepted by root with remainder
x. -/
theorem C10_root_returns_leftover_witness :
    root ['\x7b', '\x7d', 'x'] = some (JsonValue.Object [], ['x']) := by
  have h : object (multispace0 ['\x7b', '\x7d', 'x']) = some ([], ['x']) := by
    have hks : string (multispace0 ['\x7d', 'x']) = none := by decide
    have hsp : sepPairs ['\x7d', 'x'] = some ([], ['\x7d', 'x']) :=
      sepPairs_nil (pairP_none_key (key_none hks))
    have ht1 : tagP ['\x7b'] ['\x7b', '\x7d', 'x'] = some ['\x7d', 'x'] := by decide
    have ht2 : tagP ['\x7d'] ['\x7d', 'x'] = some ['x'] := by decide
    have hobj : object ['\x7b', '\x7d', 'x'] = some (hmCollect [], ['x']) :=
      object_mk ht1 hsp ht2
    exact hobj
  have h2 := C10_root_returns_leftover.1 ['\x7b', '\x7d', 'x'] [] ['x'] h
  rw [h2]
  rfl

theorem digit1_spec {i d r : List Char} (h : digit1 i = some (d, r)) :
    i = d ++ r ∧ d ≠ [] ∧ d.all Char.isDigit = true := by
  simp only [digit1] at h
  split at h
  · exact Option.noConfusion h
  · rename_i hne
    injection h with h
    injection h with h1 h2
    subst h1
    subst h2
    refine ⟨?_, by simpa [List.isEmpty_iff] using hne, ?_⟩
    · rw [drop_takeWhile_length]
      exact (List.takeWhile_append_dropWhile Char.isDigit i).symm
    · exact List.all_eq_true.mpr (fun c hc => List.mem_takeWhile_imp hc)

theorem signPart_spec (j : List Char) :
    j = (signPart j).1 ++ (signPart j).2 ∧
    ((signPart j).1 = [] ∨ (signPart j).1 = ['+'] ∨ (signPart j).1 = ['-']) := by
  unfold signPart
  split
  · exact ⟨rfl, Or.inr (Or.inl rfl)⟩
  · exact ⟨rfl, Or.inr (Or.inr rfl)⟩
  · exact ⟨rfl, Or.inl rfl⟩

theorem fracPart_spec (j : List Char) :
    j = (fracPart j).1 ++ (fracPart j).2 ∧
    ((fracPart j).1 = [] ∨
      ∃ fd, (fracPart j).1 = '.' :: fd ∧ fd.all Char.isDigit = true) := by
  unfold fracPart
  split
  · rename_i r
    rcases hd : digit1 r with _ | ⟨fd, r2⟩ <;> simp only [hd]
    · exact ⟨rfl, Or.inr ⟨[], rfl, rfl⟩⟩
    · have hs := digit1_spec hd
      exact ⟨by simp [hs.1], Or.inr ⟨fd, rfl, hs.2.2⟩⟩
  · exact ⟨rfl, Or.inl rfl⟩

theorem expPart_spec (j : List Char) :
    j = (expPart j).1 ++ (expPart j).2 ∧
    ((expPart j).1 = [] ∨ ∃ c es ed, (c = 'e' ∨ c = 'E') ∧
      (es = [] ∨ es = ['+'] ∨ es = ['-']) ∧ ed ≠ [] ∧ ed.all Char.isDigit = true ∧
      (expPart j).1 = c :: (es ++ ed)) := by
  unfold expPart
  split
  · rename_i c r
    split
    · rename_i hce
      split
      · rename_i r2
        rcases hd : digit1 r2 with _ | ⟨ed, r3⟩ <;> simp only [hd]
        · exact ⟨rfl, by simp⟩
        · have hs := digit1_spec hd
          exact ⟨by simp [hs.1], Or.inr ⟨c, ['+'], ed, hce, by simp, hs.2.1, hs.2.2, rfl⟩⟩
      · rename_i r2
        rcases hd : digit1 r2 with _ | ⟨ed, r3⟩ <;> simp only [hd]
        · exact ⟨rfl, by simp⟩
        · have hs := digit1_spec hd
          exact ⟨by simp [hs.1], Or.inr ⟨c, ['-'], ed, hce, by simp, hs.2.1, hs.2.2, rfl⟩⟩
      · rcases hd : digit1 r with _ | ⟨ed, r3⟩ <;> simp only [hd]
        · exact ⟨rfl, by simp⟩
        · have hs := digit1_spec hd
          exact ⟨by simp [hs.1], Or.inr ⟨c, [], ed, hce, by simp, hs.2.1, hs.2.2, rfl⟩⟩
    · exact ⟨rfl, Or.inl rfl⟩
  · exact ⟨rfl, Or.inl rfl⟩

theorem recognize_float_spec {i tok r : List Char}
    (h : recognize_float i = some (tok, r)) : i = tok ++ r ∧ FloatTokSpec tok := by
  simp only [recognize_float] at h
  rcases hsig : signPart i with ⟨s, j⟩
  have hsp := signPart_spec i
  rw [hsig] at h hsp
  dsimp only at h hsp
  rcases hd : digit1 j with _ | ⟨d, i2⟩ <;> simp only [hd] at h
  · split at h
    · rename_i r0
      rcases hd2 : digit1 r0 with _ | ⟨fd, i2⟩ <;> simp only [hd2] at h
      · exact Option.noConfusion h
      · rcases hex : expPart i2 with ⟨e, i4⟩
        have hes := expPart_spec i2
        rw [hex] at h hes
        dsimp only at h hes
        injection h with h
        injection h with h1 h2
        have hdg2 := digit1_spec hd2
        constructor
        · rw [← h1, ← h2, hsp.1, hdg2.1, hes.1]
          simp
        · rw [← h1]
          refine ⟨s, [], '.' :: fd, e, by simp, hsp.2,
            Or.inr ⟨rfl, fd, hdg2.2.1, hdg2.2.2, rfl⟩, hes.2⟩
    · exact Option.noConfusion h
  · rcases hfr : fracPart i2 with ⟨f, i3⟩
    have hfs := fracPart_spec i2
    rw [hfr] at h hfs
    dsimp only at h hfs
    rcases hex : expPart i3 with ⟨e, i4⟩
    have hes := expPart_spec i3
    rw [hex] at h hes
    dsimp only at h hes
    injection h with h
    injection h with h1 h2
    have hdg := digit1_spec hd
    constructor
    · rw [← h1, ← h2, hsp.1, hdg.1, hfs.1, hes.1]
      simp
    · rw [← h1]
      exact ⟨s, d, f, e, rfl, hsp.2, Or.inl ⟨hdg.2.1, hdg.2.2, hfs.2⟩, hes.2⟩

theorem double_isSome_iff (i : List Char) :
    (double i).isSome = true ↔ numberAcceptSpec i = true := by
  simp only [double, numberAcceptSpec]
  rcases hsig : signPart i with ⟨s, j⟩
  simp only [recognize_float, hsig]
  rcases j with _ | ⟨c, t⟩
  · simp [digit1]
  · by_cases hd : c.isDigit
    · simp [digit1, List.takeWhile_cons, hd]
    · have hnone : digit1 (c :: t) = none := by
        simp [digit1, List.takeWhile_cons, hd]
      rw [hnone]
      by_cases hdot : c = '.'
      · subst hdot
        rcases t with _ | ⟨c2, t2⟩
        · simp [digit1]
        · by_cases hd2 : c2.isDigit
          · simp [digit1, List.takeWhile_cons, hd2, hd]
          · simp [digit1, List.takeWhile_cons, hd2, hd]
      · split
        · rename_i r0 heq
          dsimp only at heq
          split at heq
          · rename_i r1 heq3
            injection heq3 with hc ht
            exact absurd hc hdot
          · exact Option.noConfusion heq
        · simp [hd, hdot]

/-- Claim C7 (counterexample): a numeric literal with a leading plus sign is accepted by
the number parser (and hence as a value), contradicting the claim that a leading plus
sign makes number parsing fail. -/
theorem C7_counterexample :
    double ['+', '1'] = some (1, []) ∧
    value ['+', '1'] = some (JsonValue.Num 1, []) := by
  constructor
  · decide
  · have h4 : double (multispace0 ['+', '1']) = some ((1 : ℚ), []) := by decide
    exact value_num (object_not_brace (by decide)) (array_not_bracket (by decide))
      (by decide) h4

/-- Claim C7 (amended): the number parser accepts exactly the `recognize_float` grammar:
an optional leading plus or minus sign, then either one or more digits with an optional
fractional part (a dot with optional digits) or a dot with one or more digits, then an
optional exponent (e or E, optional sign, one or more digits, backtracked entirely when
incomplete).  Every successful parse consumes a token of this shape, and the parser
succeeds exactly when the input starts this way. -/
theorem C7_number_grammar :
    (∀ i q r, double i = some (q, r) →
      ∃ tok, i = tok ++ r ∧ q = floatVal tok ∧ FloatTokSpec tok) ∧
    (∀ i, (double i).isSome = true ↔ numberAcceptSpec i = true) := by
  constructor
  · intro i q r h
    simp only [double] at h
    rcases hrf : recognize_float i with _ | ⟨tok, r1⟩ <;> simp only [hrf] at h
    · exact Option.noConfusion h
    · injection h with h
      injection h with h1 h2
      obtain ⟨ha, hb⟩ := recognize_float_spec hrf
      refine ⟨tok, ?_, h1.symm, hb⟩
      rw [← h2]
      exact ha
  · exact double_isSome_iff

/-- Witness for C7: a bare dot-five literal (no leading digits) is accepted. -/
theorem C7_number_grammar_witness : (double ['.', '5']).isSome = true :=
  (C7_number_grammar.2 ['.', '5']).mpr (by decide)

/-- Claim C8 (counterexample): the literal 1e999 parses successfully inside an array,
and the produced Number payload denotes ten to the 999th power, which is at least
2^1024 and hence overflows every finite IEEE-754 double (the reference conversion
yields positive infinity), contradicting the claim that Number nodes are always
finite. -/
theorem C8_counterexample :
    root ['[', '1', 'e', '9', '9', '9', ']'] =
      some (JsonValue.Array [JsonValue.Num (10 ^ 999)], []) ∧
    f64Overflows (10 ^ 999) := by
  constructor
  · have hrf1 : recognize_float (multispace0 ['1', 'e', '9', '9', '9', ']']) =
        some (['1', 'e', '9', '9', '9'], [']']) := by decide
    have hq0 : floatVal ['1', 'e', '9', '9', '9'] = ((1 * 10 ^ 999 : ℤ) : ℚ) := rfl
    have hq : floatVal ['1', 'e', '9', '9', '9'] = 10 ^ 999 := by
      rw [hq0]
      push_cast
      ring
    have h4 : double (multispace0 ['1', 'e', '9', '9', '9', ']']) =
        some ((10 : ℚ) ^ 999, [']']) := by
      simp only [double, hrf1, hq]
    have hv : value ['1', 'e', '9', '9', '9', ']'] =
        some (JsonValue.Num (10 ^ 999), [']']) :=
      value_num (object_not_brace (by decide)) (array_not_bracket (by decide))
        (by decide) h4
    have hvm : value (multispace0 ['1', 'e', '9', '9', '9', ']']) =
        some (JsonValue.Num (10 ^ 999), [']']) := hv
    have hel : elementV ['1', 'e', '9', '9', '9', ']'] =
        some (JsonValue.Num (10 ^ 999), [']']) := elementV_some hvm
    have hstop : sepValuesRest [']'] = some ([], [']']) :=
      sepValuesRest_stop (by decide)
    have hsv : sepValues ['1', 'e', '9', '9', '9', ']'] =
        some ([JsonValue.Num (10 ^ 999)], [']']) :=
      sepValues_cons hel (by decide) hstop
    have ht1 : tagP ['['] ['[', '1', 'e', '9', '9', '9', ']'] =
        some ['1', 'e', '9', '9', '9', ']'] := by decide
    have ht2 : tagP [']'] [']'] = some [] := by decide
    have harr : array ['[', '1', 'e', '9', '9', '9', ']'] =
        some ([JsonValue.Num (10 ^ 999)], []) := array_mk ht1 hsv ht2
    have harrm : array (multispace0 ['[', '1', 'e', '9', '9', '9', ']']) =
        some ([JsonValue.Num (10 ^ 999)], []) := harr
    exact root_array_some (object_not_brace (by decide)) harrm
  · unfold f64Overflows
    rw [abs_of_nonneg (by positivity)]
    norm_num

/-- Claim C8 (amended): the literals NaN and Infinity are rejected as unrecognized
values, but Number nodes are not always finite doubles: the accepted literal 1e999
produces a Number whose value is ten to the 999th power, beyond the finite double
range, which the reference `f64` conversion turns into positive infinity. -/
theorem C8_number_not_always_finite :
    value ['N', 'a', 'N'] = none ∧
    value ['I', 'n', 'f', 'i', 'n', 'i', 't', 'y'] = none ∧
    root ['[', '1', 'e', '9', '9', '9', ']'] =
      some (JsonValue.Array [JsonValue.Num (10 ^ 999)], []) ∧
    f64Overflows (10 ^ 999) := by
  refine ⟨?_, ?_, ?_, ?_⟩
  · exact value_fail (object_not_brace (by decide)) (array_not_bracket (by decide))
      (by decide) (by decide) (by rfl) (by rfl)
  · exact value_fail (object_not_brace (by decide)) (array_not_bracket (by decide))
      (by decide) (by decide) (by rfl) (by rfl)
  · have hrf2 : recognize_float (multispace0 ['1', 'e', '9', '9', '9', ']']) =
        some (['1', 'e', '9', '9', '9'], [']']) := by decide
    have hq2 : floatVal ['1', 'e', '9', '9', '9'] = ((1 * 10 ^ 999 : ℤ) : ℚ) := rfl
    have hq : floatVal ['1', 'e', '9', '9', '9'] = 10 ^ 999 := by
      rw [hq2]
      push_cast
      ring
    have h4 : double (multispace0 ['1', 'e', '9', '9', '9', ']']) =
        some ((10 : ℚ) ^ 999, [']']) := by
      simp only [double, hrf2, hq]
    have hv : value ['1', 'e', '9', '9', '9', ']'] =
        some (JsonValue.Num (10 ^ 999), [']']) :=
      value_num (object_not_brace (by decide)) (array_not_bracket (by decide))
        (by decide) h4
    have hvm : value (multispace0 ['1', 'e', '9', '9', '9', ']']) =
        some (JsonValue.Num (10 ^ 999), [']']) := hv
    have hel : elementV ['1', 'e', '9', '9', '9', ']'] =
        some (JsonValue.Num (10 ^ 999), [']']) := elementV_some hvm
    have hstop : sepValuesRest [']'] = some ([], [']']) :=
      sepValuesRest_stop (by decide)
    have hsv : sepValues ['1', 'e', '9', '9', '9', ']'] =
        some ([JsonValue.Num (10 ^ 999)], [']']) :=
      sepValues_cons hel (by decide) hstop
    have ht1 : tagP ['['] ['[', '1', 'e', '9', '9', '9', ']'] =
        some ['1', 'e', '9', '9', '9', ']'] := by decide
    have ht2 : tagP [']'] [']'] = some [] := by decide
    have harr : array ['[', '1', 'e', '9', '9', '9', ']'] =
        some ([JsonValue.Num (10 ^ 999)], []) := array_mk ht1 hsv ht2
    have harrm : array (multispace0 ['[', '1', 'e', '9', '9', '9', ']']) =
        some ([JsonValue.Num (10 ^ 999)], []) := harr
    exact root_array_some (object_not_brace (by decide)) harrm
  · unfold f64Overflows
    rw [abs_of_nonneg (by positivity)]
    norm_num

/-! Evaluation lemmas on inputs with a symbolic whitespace tail, used to settle the
trailing-comma claim for every amount of whitespace between the comma and the closing
delimiter. -/

theorem tagP_none_of_head_ne {c d : Char} (t l : List Char) (h : ¬ c = d) :
    tagP (d :: t) (c :: l) = none := by
  simp only [tagP, List.length_cons, List.take_succ_cons]
  rw [if_neg (by simp [h])]

theorem normal_cons_stop {c : Char} (l : List Char) (h : isNormalChar c = false) :
    normal (c :: l) = none := by
  simp [normal, List.takeWhile_cons, h]

theorem normal_one {c d : Char} (l : List Char) (hc : isNormalChar c = true)
    (hd : isNormalChar d = false) : normal (c :: d :: l) = some ([c], d :: l) := by
  simp [normal, List.takeWhile_cons, hc, hd]

theorem escapedGo_stop {c : Char} (f : Nat) (l : List Char)
    (h1 : isNormalChar c = false) (h2 : ¬ c = '\\') :
    escapedGo (f + 1) (c :: l) = some ([], c :: l) := by
  simp [escapedGo, normal_cons_stop _ h1, h2]

theorem parse_str_one {c : Char} (rest : List Char) (hc : isNormalChar c = true) :
    parse_str (c :: '"' :: rest) = some ([c], '"' :: rest) := by
  have hne : isNormalChar '"' = false := by decide
  simp only [parse_str, List.length_cons]
  simp only [escapedGo, normal_one _ hc hne]
  simp [normal_cons_stop _ hne]

theorem string_none_of_head {c : Char} (l : List Char) (h : ¬ c = '"') :
    string (c :: l) = none := by
  have h2 : tagP ['"', '"'] (c :: l) = none := tagP_none_of_head_ne _ _ h
  have h1 : tagP ['"'] (c :: l) = none := tagP_none_of_head_ne _ _ h
  simp [string, h2, h1]

theorem string_one {c : Char} (rest : List Char) (hc : isNormalChar c = true)
    (hcq : ¬ c = '"') :
    string ('"' :: c :: '"' :: rest) = some ([c], rest) := by
  have h2 : tagP ['"', '"'] ('"' :: c :: '"' :: rest) = none := by
    simp only [tagP, List.length_cons, List.length_nil, List.take_succ_cons,
      List.take_zero]
    rw [if_neg (by simp [hcq])]
  have h1 : tagP ['"'] ('"' :: c :: '"' :: rest) = some (c :: '"' :: rest) :=
    tagP_eq_some.mpr rfl
  have hps : parse_str (c :: '"' :: rest) = some ([c], '"' :: rest) :=
    parse_str_one rest hc
  have h3 : tagP ['"'] ('"' :: rest) = some rest := tagP_eq_some.mpr rfl
  simp [string, h2, h1, hps, h3]

theorem rf_one (l : List Char) :
    recognize_float ('1' :: ',' :: l) = some (['1'], ',' :: l) := by
  have hsig : signPart ('1' :: ',' :: l) = ([], '1' :: ',' :: l) := rfl
  have hd : digit1 ('1' :: ',' :: l) = some (['1'], ',' :: l) := by
    simp [digit1, List.takeWhile_cons]
  have hfr : fracPart (',' :: l) = ([], ',' :: l) := rfl
  have hex : expPart (',' :: l) = ([], ',' :: l) := by
    simp [expPart]
  simp [recognize_float, hsig, hd, hfr, hex]

theorem double_one (l : List Char) :
    double ('1' :: ',' :: l) = some (floatVal ['1'], ',' :: l) := by
  simp [double, rf_one]

/-- Claim C5: a comma followed by optional whitespace and then the closing delimiter
makes the array and the object parsers fail: on the trailing-comma array
bracket-1-comma-whitespace-bracket the element after the comma fails, the separator
loop backtracks the comma, and the leftover comma does not match the closing bracket;
likewise for the trailing-comma object brace-quote-a-quote-colon-1-comma-whitespace-
brace. -/
theorem C5_no_trailing_comma :
    (∀ ws, (∀ c ∈ ws, isWsChar c = true) →
      array ('[' :: '1' :: ',' :: (ws ++ [']'])) = none) ∧
    (∀ ws, (∀ c ∈ ws, isWsChar c = true) →
      object ('\x7b' :: '"' :: 'a' :: '"' :: ':' :: '1' :: ',' :: (ws ++ ['\x7d'])) =
        none) := by
  constructor
  · intro ws hws
    have hm1 : multispace0 ('1' :: ',' :: (ws ++ [']'])) = '1' :: ',' :: (ws ++ [']']) :=
      multispace0_not_ws _ (by decide)
    have hobj : object (multispace0 ('1' :: ',' :: (ws ++ [']']))) = none := by
      rw [hm1]
      exact object_not_brace (tagP_none_of_head_ne _ _ (by decide))
    have harr : array (multispace0 ('1' :: ',' :: (ws ++ [']']))) = none := by
      rw [hm1]
      exact array_not_bracket (tagP_none_of_head_ne _ _ (by decide))
    have hstr : string (multispace0 ('1' :: ',' :: (ws ++ [']']))) = none := by
      rw [hm1]
      exact string_none_of_head _ (by decide)
    have hdb : double (multispace0 ('1' :: ',' :: (ws ++ [']']))) =
        some (floatVal ['1'], ',' :: (ws ++ [']'])) := by
      rw [hm1]
      exact double_one _
    have hv1 : value ('1' :: ',' :: (ws ++ [']'])) =
        some (JsonValue.Num (floatVal ['1']), ',' :: (ws ++ [']'])) := by
      have h := value_num hobj harr hstr hdb
      rwa [multispace0_not_ws _ (by decide)] at h
    have hv1m : value (multispace0 ('1' :: ',' :: (ws ++ [']']))) =
        some (JsonValue.Num (floatVal ['1']), ',' :: (ws ++ [']'])) := by
      rw [hm1]
      exact hv1
    have hel1 : elementV ('1' :: ',' :: (ws ++ [']'])) =
        some (JsonValue.Num (floatVal ['1']), ',' :: (ws ++ [']'])) := by
      have h := elementV_some hv1m
      rwa [multispace0_not_ws _ (by decide)] at h
    have hm2 : multispace0 (ws ++ [']']) = [']'] := by
      rw [multispace0_append _ hws]
      decide
    have hvr : value [']'] = none :=
      value_fail (object_not_brace (by decide)) (array_not_bracket (by decide))
        (by decide) (by decide) (by rfl) (by rfl)
    have hvrm : value (multispace0 (ws ++ [']'])) = none := by
      rw [hm2]
      exact hvr
    have helr : elementV (ws ++ [']']) = none := elementV_none hvrm
    have htc : tagP [','] (',' :: (ws ++ [']'])) = some (ws ++ [']']) :=
      tagP_eq_some.mpr rfl
    have hrest : sepValuesRest (',' :: (ws ++ [']'])) =
        some ([], ',' :: (ws ++ [']'])) :=
      sepValuesRest_backtrack htc (by simp only [List.length_cons]; omega) helr
    have hsv : sepValues ('1' :: ',' :: (ws ++ [']'])) =
        some ([JsonValue.Num (floatVal ['1'])], ',' :: (ws ++ [']'])) :=
      sepValues_cons hel1 (by simp only [List.length_cons]; omega) hrest
    have ht0 : tagP ['['] ('[' :: '1' :: ',' :: (ws ++ [']'])) =
        some ('1' :: ',' :: (ws ++ [']'])) := tagP_eq_some.mpr rfl
    have htq : tagP [']'] (',' :: (ws ++ [']'])) = none :=
      tagP_none_of_head_ne _ _ (by decide)
    exact array_no_close ht0 hsv htq
  · intro ws hws
    have hm0 : multispace0 ('"' :: 'a' :: '"' :: ':' :: '1' :: ',' :: (ws ++ ['\x7d'])) =
        '"' :: 'a' :: '"' :: ':' :: '1' :: ',' :: (ws ++ ['\x7d']) :=
      multispace0_not_ws _ (by decide)
    have hstr1 : string (multispace0
        ('"' :: 'a' :: '"' :: ':' :: '1' :: ',' :: (ws ++ ['\x7d']))) =
        some (['a'], ':' :: '1' :: ',' :: (ws ++ ['\x7d'])) := by
      rw [hm0]
      exact string_one _ (by decide) (by decide)
    have hk : key ('"' :: 'a' :: '"' :: ':' :: '1' :: ',' :: (ws ++ ['\x7d'])) =
        some (['a'], ':' :: '1' :: ',' :: (ws ++ ['\x7d'])) := by
      have h := key_some hstr1
      rwa [multispace0_not_ws _ (by decide)] at h
    have htcolon : tagP [':'] (':' :: '1' :: ',' :: (ws ++ ['\x7d'])) =
        some ('1' :: ',' :: (ws ++ ['\x7d'])) := tagP_eq_some.mpr rfl
    have hm1 : multispace0 ('1' :: ',' :: (ws ++ ['\x7d'])) =
        '1' :: ',' :: (ws ++ ['\x7d']) := multispace0_not_ws _ (by decide)
    have hobj : object (multispace0 ('1' :: ',' :: (ws ++ ['\x7d']))) = none := by
      rw [hm1]
      exact object_not_brace (tagP_none_of_head_ne _ _ (by decide))
    have harr : array (multispace0 ('1' :: ',' :: (ws ++ ['\x7d']))) = none := by
      rw [hm1]
      exact array_not_bracket (tagP_none_of_head_ne _ _ (by decide))
    have hstr : string (multispace0 ('1' :: ',' :: (ws ++ ['\x7d']))) = none := by
      rw [hm1]
      exact string_none_of_head _ (by decide)
    have hdb : double (multispace0 ('1' :: ',' :: (ws ++ ['\x7d']))) =
        some (floatVal ['1'], ',' :: (ws ++ ['\x7d'])) := by
      rw [hm1]
      exact double_one _
    have hv1 : value ('1' :: ',' :: (ws ++ ['\x7d'])) =
        some (JsonValue.Num (floatVal ['1']), ',' :: (ws ++ ['\x7d'])) := by
      have h := value_num hobj harr hstr hdb
      rwa [multispace0_not_ws _ (by decide)] at h
    have hv1m : value (multispace0 ('1' :: ',' :: (ws ++ ['\x7d']))) =
        some (JsonValue.Num (floatVal ['1']), ',' :: (ws ++ ['\x7d'])) := by
      rw [hm1]
      exact hv1
    have hel1 : elementV ('1' :: ',' :: (ws ++ ['\x7d'])) =
        some (JsonValue.Num (floatVal ['1']), ',' :: (ws ++ ['\x7d'])) := by
      have h := elementV_some hv1m
      rwa [multispace0_not_ws _ (by decide)] at h
    have hpair : pairP ('"' :: 'a' :: '"' :: ':' :: '1' :: ',' :: (ws ++ ['\x7d'])) =
        some ((['a'], JsonValue.Num (floatVal ['1'])), ',' :: (ws ++ ['\x7d'])) :=
      pairP_mk hk htcolon hel1
    have hsn : string (multispace0 (ws ++ ['\x7d'])) = none := by
      rw [multispace0_append _ hws]
      decide
    have hpnone : pairP (ws ++ ['\x7d']) = none := pairP_none_key (key_none hsn)
    have htc2 : tagP [','] (',' :: (ws ++ ['\x7d'])) = some (ws ++ ['\x7d']) :=
      tagP_eq_some.mpr rfl
    have hbk : sepPairsRest (',' :: (ws ++ ['\x7d'])) =
        some ([], ',' :: (ws ++ ['\x7d'])) :=
      sepPairsRest_backtrack htc2 (by simp only [List.length_cons]; omega) hpnone
    have hsp : sepPairs ('"' :: 'a' :: '"' :: ':' :: '1' :: ',' :: (ws ++ ['\x7d'])) =
        some ([(['a'], JsonValue.Num (floatVal ['1']))], ',' :: (ws ++ ['\x7d'])) :=
      sepPairs_cons hpair (by simp only [List.length_cons]; omega) hbk
    have ht0 : tagP ['\x7b']
        ('\x7b' :: '"' :: 'a' :: '"' :: ':' :: '1' :: ',' :: (ws ++ ['\x7d'])) =
        some ('"' :: 'a' :: '"' :: ':' :: '1' :: ',' :: (ws ++ ['\x7d'])) :=
      tagP_eq_some.mpr rfl
    have htq : tagP ['\x7d'] (',' :: (ws ++ ['\x7d'])) = none :=
      tagP_none_of_head_ne _ _ (by decide)
    exact object_no_close ht0 hsp htq

/-- Witness for C5: with a single space after the comma, the trailing-comma array and
the trailing-comma object are both rejected. -/
theorem C5_no_trailing_comma_witness :
    array ['[', '1', ',', ' ', ']'] = none ∧
    object ['\x7b', '"', 'a', '"', ':', '1', ',', ' ', '\x7d'] = none :=
  ⟨C5_no_trailing_comma.1 [' '] (by decide), C5_no_trailing_comma.2 [' '] (by decide)⟩

end JsonParse
